import Mathlib

/-!
Verification development for the docs-chat job pipeline (src/jobs/docs.ts).

The development embeds the pipeline's core logic:
* the DOM segmenter of the process-single-url job (heading loop and the
  sibling/ascend walk of getElementsBetween),
* the sitemap crawl and the 25-URL chunking loop of the process-site job,
* the upload / registry create-vs-update logic (key-value store keyed by
  site URL, OpenAI assistants as knowledge bases),
* the delete-assistant and question-assistant jobs.

External collaborators (HTTP fetch, the XML parser, JSDOM parsing, the
OpenAI services, the trigger.dev key-value store) are modelled as explicit
inputs or as fields of an explicit world state, following the source's use
of them.  Machine integers do not occur; all counters are Nat.
-/

namespace Docs

/-- A parsed DOM tree as JSDOM presents it: element nodes with a tag and an
ordered child list, and text nodes.  The document object itself is modelled
as the root node (it has no parent and no siblings, which is all the code
observes of it). -/
inductive Dom where
  | text (s : String)
  | elem (tag : String) (children : List Dom)

/-- A node position: the list of child indices from the node up to the root
(deepest index first), so the parent position is the tail. -/
abbrev Path := List Nat

mutual
def sizeD : Dom → Nat
  | .text _ => 1
  | .elem _ cs => 1 + sizeL cs
def sizeL : List Dom → Nat
  | [] => 0
  | c :: cs => sizeD c + sizeL cs
end

def isElem : Dom → Bool
  | .elem _ _ => true
  | .text _ => false

/-- The selector "h1, h2, h3, h4, h5, h6" of the process-single-url run. -/
def isHeadingTag (tag : String) : Bool :=
  tag == "h1" || tag == "h2" || tag == "h3" || tag == "h4" || tag == "h5" || tag == "h6"

def child (d : Dom) (i : Nat) : Option Dom :=
  match d with
  | .elem _ cs => cs[i]?
  | .text _ => none

def nodeAt (t : Dom) : Path → Option Dom
  | [] => some t
  | i :: p => (nodeAt t p).bind (fun d => child d i)

/-- `parentNode`: the document root has no parent. -/
def parentPath : Path → Option Path
  | [] => none
  | _ :: p => some p

/-- Index of the first element-kind entry of `l`, reporting positions
starting at `k`. -/
def firstElemAux : List Dom → Nat → Option Nat
  | [], _ => none
  | c :: cs, k => if isElem c then some k else firstElemAux cs (k + 1)

def firstElemIdxFrom (cs : List Dom) (k : Nat) : Option Nat :=
  firstElemAux (cs.drop k) k

/-- `nextElementSibling`: the next sibling of the node at `p` that is an
element, skipping text nodes; none at the root or after the last sibling. -/
def nextElemSib (t : Dom) : Path → Option Path
  | [] => none
  | i :: rp =>
    match nodeAt t rp with
    | some (.elem _ cs) => (firstElemIdxFrom cs (i + 1)).map (fun j => j :: rp)
    | _ => none

def childCount (t : Dom) (rp : Path) : Nat :=
  match nodeAt t rp with
  | some (.elem _ cs) => cs.length
  | _ => 0

/-- Siblings remaining to the right of position `p` (used only as a
termination measure for the traversal). -/
def remSibs (t : Dom) : Path → Nat
  | [] => 0
  | i :: rp => childCount t rp - i

/-- Termination measure for the getElementsBetween walk: every iteration
either advances to a later sibling or ascends to the parent. -/
def mu (t : Dom) (p : Path) : Nat :=
  sizeD t * p.length + remSibs t p

/-- Fuel that (provably) suffices for the walk to finish on its own. -/
def gebFuel (t : Dom) : Nat :=
  sizeD t * sizeD t

/-- One-to-one embedding of the while loop of getElementsBetween
(src/jobs/docs.ts lines 178-202).  `endP = none` models a null or undefined
endElement; both compare unequal to every element and both end the loop as
soon as the cursor itself becomes null, so one value models the two.
Returns none only when out of fuel, which cannot happen from a real start
node (see the termination theorem). -/
def gebGo (t : Dom) (endP : Option Path) : Nat → Path → Path → List Path → Option (List Path)
  | 0, _, _, _ => none
  | fuel + 1, cur, start, acc =>
    if some cur = endP then
      some acc.reverse
    else
      match nextElemSib t cur with
      | some nxt =>
        if some nxt = endP then some acc.reverse
        else gebGo t endP fuel nxt start (nxt :: acc)
      | none =>
        match parentPath start with
        | none => some acc.reverse
        | some par =>
          if some par = endP then some acc.reverse
          else gebGo t endP fuel par par acc

/-- getElementsBetween itself: run the walk from `startElement` (which is
also the initial traversal cursor) with the proven-sufficient fuel. -/
def getElementsBetween (t : Dom) (s : Path) (e : Option Path) : List Path :=
  (gebGo t e (gebFuel t) s s []).getD []

mutual
def textContent : Dom → String
  | .text s => s
  | .elem _ cs => textContentL cs
def textContentL : List Dom → String
  | [] => ""
  | c :: cs => textContent c ++ textContentL cs
end

/-- `textContent` of the node at a position (positions handed around by the
segmenter always point at real elements). -/
def textAt (t : Dom) (p : Path) : String :=
  match nodeAt t p with
  | some n => textContent n
  | none => ""

mutual
/-- document.querySelectorAll("script, style") followed by el.remove()
(src/jobs/docs.ts lines 31-34): every script/style element is detached,
together with its whole subtree. -/
def stripScriptsStyles : Dom → Dom
  | .text s => .text s
  | .elem tag cs => .elem tag (stripL cs)
def stripL : List Dom → List Dom
  | [] => []
  | .elem tag cc :: cs =>
    if tag == "script" || tag == "style" then stripL cs
    else .elem tag (stripL cc) :: stripL cs
  | .text s :: cs => .text s :: stripL cs
end

mutual
/-- querySelectorAll("h1, h2, h3, h4, h5, h6") in document order:
preorder positions of all heading descendants. -/
def collectHeads : Dom → Path → List Path
  | .text _, _ => []
  | .elem tag cs, rp =>
    (if isHeadingTag tag then [rp] else []) ++ collectHeadsL cs 0 rp
def collectHeadsL : List Dom → Nat → Path → List Path
  | [], _, _ => []
  | c :: cs, i, rp => collectHeads c (i :: rp) ++ collectHeadsL cs (i + 1) rp
end

/-- Heading positions of the document, in document order.  querySelectorAll
returns descendants of the document node, never the document itself. -/
def headingPaths : Dom → List Path
  | .text _ => []
  | .elem _ cs => collectHeadsL cs 0 []

/-- content[content.length - 1]?.parentElement?.nextElementSibling
(src/jobs/docs.ts lines 42-43).  Optional chaining collapses a missing last
heading, a non-element parent (the document) and a missing sibling into the
same undefined, modelled as none; nextElemSib already returns none at the
document root, matching parentElement being null there. -/
def tailBoundary (t : Dom) (hs : List Path) : Option Path :=
  (hs.getLast?).bind (fun p => (parentPath p).bind (fun q => nextElemSib t q))

structure Section where
  title : String
  content : String
deriving DecidableEq, Repr

/-- One iteration of the heading loop (src/jobs/docs.ts lines 47-55):
boundary is content[i + 1] when present (JS `||`), else lastElement. -/
def mkSection (t : Dom) (hs : List Path) (lastB : Option Path) (i : Nat) (p : Path) : Section :=
  { title := textAt t p,
    content := String.intercalate "\n"
      ((getElementsBetween t p ((hs[i + 1]?).orElse (fun _ => lastB))).map (textAt t)) }

/-- The for loop over `content`, with `i` the running index. -/
def sectionsLoop (t : Dom) (hs : List Path) (lastB : Option Path) : Nat → List Path → List Section
  | _, [] => []
  | i, p :: rest => mkSection t hs lastB i p :: sectionsLoop t hs lastB (i + 1) rest

/-- The segmentation performed by the process-single-url run on a parsed
document: strip scripts and styles, collect headings, then emit one
(title, content) record per heading. -/
def segment (doc : Dom) : List Section :=
  let t := stripScriptsStyles doc
  let hs := headingPaths t
  sectionsLoop t hs (tailBoundary t hs) 0 hs

/-- The 34-dash separator line of the page template. -/
def pageSep : String := "----------------------------------"

/-- The template literal of src/jobs/docs.ts lines 58-64, byte for byte:
every template line is indented by eight spaces, `url:` is followed by an
escaped newline plus the line break, and sections are joined with "\n". -/
def renderPage (url : String) (secs : List Section) : String :=
  "\n        " ++ pageSep ++ "\n        " ++ "url: " ++ url ++ "\n" ++ "\n        "
    ++ String.intercalate "\n" (secs.map (fun e => e.title ++ "\n" ++ e.content))
    ++ "\n" ++ "\n        " ++ pageSep ++ "\n        "

/-- The process-single-url run for one URL.  `env` is the external
fetch-and-parse collaborator: none models a failed fetch or parse, some d
the parsed DOM of the response body. -/
def processSingleUrlRun (env : String → Option Dom) (url : String) : Option String :=
  (env url).map (fun d => renderPage url (segment d))

structure Batch (α : Type) where
  index : Nat
  urls : List α
deriving DecidableEq, Repr

/-- The chunking loop (src/jobs/docs.ts lines 97-104): i advances by 25 and
each batch records the loop index and slice(i, i + 25).  The first argument
is fuel, instantiated with the list length, which each step strictly
decreases. -/
def chunkGo {α : Type} : Nat → List α → Nat → List (Batch α)
  | 0, _, _ => []
  | _ + 1, [], _ => []
  | n + 1, u :: us, i =>
    { index := i, urls := (u :: us).take 25 } :: chunkGo n ((u :: us).drop 25) (i + 25)

def chunk {α : Type} (l : List α) : List (Batch α) :=
  chunkGo l.length l 0

/-- A parsed XML value as fast-xml-parser returns it (a plain JS value):
strings, numbers, objects, arrays.  The parser itself is lenient and is
treated as the external collaborator producing this value; the shape checks
of the code happen through property accesses on it. -/
inductive PVal where
  | vStr (s : String)
  | vNum (n : Int)
  | vObj (fields : List (String × PVal))
  | vArr (elems : List PVal)

def lookupField : List (String × PVal) → String → Option PVal
  | [], _ => none
  | (k, v) :: fs, key => if k == key then some v else lookupField fs key

/-- JS property access `x.k`: an object yields its field or undefined;
property access on strings, numbers and arrays yields undefined (none). -/
def jsGet (v : PVal) (key : String) : Option PVal :=
  match v with
  | .vObj fs => lookupField fs key
  | _ => none

/-- Outcome of fetch({url}/sitemap.xml) followed by response.text() and
XMLParser().parse: either the request itself failed (fetch rejects only on
network errors), or a response arrived — with any HTTP status — and its
body parsed to a value. -/
inductive SmFetch where
  | netFail
  | response (status : Nat) (parsed : PVal)

/-- The error taxonomy of the spec for the crawl step. -/
inductive SiteErr where
  | fetchError
  | malformedSitemap
deriving DecidableEq, Repr

/-- The get-sitemap-urls task (src/jobs/docs.ts lines 87-94).  A network
failure rejects the fetch (FetchError).  Otherwise the parsed body is
destructured as parsed.urlset.url.map(x => x.loc): a missing urlset or url
property, or a url value that is not an array, throws (MalformedSitemap);
entries without a loc produce undefined entries (none), not an error.  The
HTTP status is never inspected. -/
def getSitemapUrls : SmFetch → Except SiteErr (List (Option PVal))
  | .netFail => .error .fetchError
  | .response _ v =>
    match jsGet v "urlset" with
    | none => .error .malformedSitemap
    | some us =>
      match jsGet us "url" with
      | none => .error .malformedSitemap
      | some (.vArr xs) => .ok (xs.map (fun x => jsGet x "loc"))
      | some _ => .error .malformedSitemap

/-- One batched invocation of process-single-url for one sitemap entry.
The payload schema z.string().url() rejects a missing or non-string loc, so
only string entries reach the fetch; URL-format rejection by zod is part of
the env's failure case. -/
def invokeSingle (env : String → Option Dom) : Option PVal → Option String
  | some (.vStr s) => processSingleUrlRun env s
  | _ => none

structure Assistant where
  id : String
  file_ids : List String
deriving DecidableEq, Repr

structure Thread where
  id : String
  messages : List (String × String)
deriving DecidableEq, Repr

/-- The persistent state the jobs touch: the trigger.dev key-value store
(io.store.env, backing the site registry), the OpenAI assistants (the
knowledge bases), uploaded files, conversation threads and started runs.
nextId feeds the externally generated fresh identifiers. -/
structure World where
  store : List (String × String)
  assistants : List Assistant
  files : List (String × String)
  threads : List Thread
  runs : List (String × String × String)
  nextId : Nat
deriving DecidableEq, Repr

/-- io.store.env.get: the value stored under a key. -/
def kvGet (s : List (String × String)) (k : String) : Option String :=
  match s with
  | [] => none
  | (k1, v) :: rest => if k1 == k then some v else kvGet rest k

/-- io.store.env.set: overwrite the value under a key. -/
def kvSet (s : List (String × String)) (k v : String) : List (String × String) :=
  (k, v) :: s.filter (fun kv => kv.1 != k)

/-- Upload-then-create-or-update tail of the process-site run
(src/jobs/docs.ts lines 135-174): upload the corpus file, look the site URL
up in the store; on a miss create an assistant seeded with the file and
store its id under the URL; on a hit update that assistant's file set and
return the stored id unchanged. -/
def publish (w : World) (url fileContents : String) : World × String :=
  let fid := "file_" ++ toString w.nextId
  let w1 : World := { w with files := (fid, fileContents) :: w.files, nextId := w.nextId + 1 }
  match kvGet w1.store url with
  | none =>
    let aid := "asst_" ++ toString w1.nextId
    let w2 : World := { w1 with
      assistants := { id := aid, file_ids := [fid] } :: w1.assistants,
      store := kvSet w1.store url aid,
      nextId := w1.nextId + 1 }
    (w2, aid)
  | some aid =>
    let w2 : World := { w1 with
      assistants := (w1.assistants.map
        (fun a => if a.id = aid then { a with file_ids := [fid] } else a)) }
    (w2, aid)

/-- The process-site run (src/jobs/docs.ts lines 84-175): sitemap fetch,
chunking, sequential batches each invoking process-single-url per URL and
keeping only results with ok = true (paired with the entry they came from,
in order), corpus join with "\n\n", then upload and create-or-update. -/
def processSite (w : World) (sm : SmFetch) (env : String → Option Dom) (url : String) :
    Except SiteErr (World × String) :=
  match getSitemapUrls sm with
  | .error e => .error e
  | .ok sitemapUrls =>
    let chunks := chunk sitemapUrls
    let pages := chunks.flatMap
      (fun c => c.urls.filterMap (fun u => (invokeSingle env u).map (fun p => (u, p))))
    let fileContents := String.intercalate "\n\n" (pages.map Prod.snd)
    .ok (publish w url fileContents)

/-- Flat statement-side description of the per-URL outcomes: the successful
pages, in sitemap order, paired with their entries. -/
def successPages (env : String → Option Dom) (us : List (Option PVal)) :
    List (Option PVal × String) :=
  us.filterMap (fun u => (invokeSingle env u).map (fun p => (u, p)))

/-- The delete-assistant job (src/jobs/docs.ts lines 204-219): one call
deleting the assistant; nothing else is touched. -/
def deleteAssistant (w : World) (id : String) : World :=
  { w with assistants := w.assistants.filter (fun a => a.id != id) }

/-- External inputs of one question-assistant run: the terminal status the
run reaches, its last_error detail, and the assistant reply the completed
run appends to the thread. -/
structure AskEnv where
  runStatus : String
  lastError : String
  reply : String
deriving DecidableEq, Repr

def freshThreadId (w : World) : String := "thread_" ++ toString w.nextId

/-- messages.create on a thread: append to that thread's message list. -/
def addMessage (w : World) (tid : String) (m : String × String) : World :=
  { w with threads := (w.threads.map
      (fun t => if t.id = tid then { t with messages := t.messages ++ [m] } else t)) }

/-- messages.list(thread, limit 10, order desc). -/
def listMessagesDesc (w : World) (tid : String) : List (String × String) :=
  match w.threads.find? (fun t => t.id == tid) with
  | some t => t.messages.reverse.take 10
  | none => []

/-- The question-assistant run (src/jobs/docs.ts lines 221-287): registry
lookup guard, thread retrieve-or-create, user message append, run to a
terminal status, then the newest-first message page.  The pair returns the
world after the run so that (absence of) side effects is observable. -/
def ask (w : World) (env : AskEnv) (content url : String) (threadId? : Option String) :
    World × Except String (List (String × String)) :=
  match kvGet w.store url with
  | none => (w, .error ("No assistant found for " ++ url))
  | some aid =>
    let wt : Option (World × String) :=
      match threadId? with
      | some tid => (w.threads.find? (fun t => t.id == tid)).map (fun t => (w, t.id))
      | none =>
        some ({ w with threads := { id := freshThreadId w, messages := [] } :: w.threads,
                       nextId := w.nextId + 1 }, freshThreadId w)
    match wt with
    | none => (w, .error "thread retrieval failed")
    | some (w1, tid) =>
      let w2 := addMessage w1 tid ("user", content)
      let w3 : World := { w2 with runs := (tid, aid, env.runStatus) :: w2.runs }
      if env.runStatus = "completed" then
        let w4 := addMessage w3 tid ("assistant", env.reply)
        (w4, .ok (listMessagesDesc w4 tid))
      else
        (w3, .error ("Run finished with status " ++ env.runStatus ++ ": " ++ env.lastError))

/-- Parsed value of a sitemap with an empty url list. -/
def emptySitemapVal : PVal :=
  .vObj [("urlset", .vObj [("url", .vArr [])])]

/-- Concrete fixture document used to instantiate the theorems on concrete
inputs: a document whose body holds an h1, an immediately following h2 and
a trailing paragraph. -/
def demoDoc : Dom :=
  .elem "#document"
    [.elem "html"
      [.elem "body"
        [.elem "h1" [.text "Alpha"],
         .elem "h2" [.text "Beta"],
         .elem "p" [.text "tail"]]]]

/-- Concrete fixture world with empty store and services. -/
def emptyWorld : World :=
  { store := [], assistants := [], files := [], threads := [], runs := [], nextId := 0 }

/-- Concrete fixture sitemap fetch outcome: status 200, two url entries. -/
def demoSitemap : SmFetch :=
  .response 200 (.vObj [("urlset", .vObj [("url", .vArr
    [.vObj [("loc", .vStr "https://s.example/a")],
     .vObj [("loc", .vStr "https://s.example/b")]])])])

/-- The loc entries of demoSitemap as getSitemapUrls extracts them. -/
def demoUrls : List (Option PVal) :=
  [some (.vStr "https://s.example/a"), some (.vStr "https://s.example/b")]

/-- Concrete fixture page environment: the first demo URL parses to the
demo document, every other fetch fails. -/
def demoEnv : String → Option Dom :=
  fun u => if u == "https://s.example/a" then some demoDoc else none

/-! ## Size and measure lemmas for the sibling/ascend walk -/

theorem sizeD_pos (d : Dom) : 1 ≤ sizeD d := by
  cases d <;> simp [sizeD]

theorem sizeD_mem_le {c : Dom} {cs : List Dom} (h : c ∈ cs) : sizeD c ≤ sizeL cs := by
  induction cs with
  | nil => simp at h
  | cons a as ih =>
    rw [List.mem_cons] at h
    rcases h with rfl | h
    · simp [sizeL]
    · have h1 := ih h
      have h2 := sizeD_pos a
      simp [sizeL]
      omega

theorem length_le_sizeL (cs : List Dom) : cs.length ≤ sizeL cs := by
  induction cs with
  | nil => simp [sizeL]
  | cons a as ih =>
    have := sizeD_pos a
    simp [sizeL]
    omega

theorem child_size_lt {d c : Dom} {i : Nat} (h : child d i = some c) : sizeD c < sizeD d := by
  cases d with
  | text s => simp [child] at h
  | elem tag cs =>
    simp only [child] at h
    have h1 := sizeD_mem_le (List.getElem?_mem h)
    simp [sizeD]
    omega

theorem nodeAt_le {t : Dom} {p : Path} {d : Dom} (h : nodeAt t p = some d) :
    p.length + sizeD d ≤ sizeD t := by
  induction p generalizing d with
  | nil =>
    simp [nodeAt] at h
    subst h
    simp
  | cons i p ih =>
    simp only [nodeAt, Option.bind_eq_some] at h
    obtain ⟨e, he, hc⟩ := h
    have h1 := ih he
    have h2 := child_size_lt hc
    simp only [List.length_cons]
    omega

theorem childCount_lt (t : Dom) (rp : Path) : childCount t rp < sizeD t := by
  rcases hn : nodeAt t rp with _ | d
  · have := sizeD_pos t
    simp [childCount, hn]
    omega
  · cases d with
    | text s =>
      have := sizeD_pos t
      simp [childCount, hn]
      omega
    | elem tag cs =>
      have h1 := nodeAt_le hn
      have h2 := length_le_sizeL cs
      simp only [sizeD] at h1
      simp [childCount, hn]
      omega

theorem remSibs_lt (t : Dom) (p : Path) : remSibs t p < sizeD t := by
  cases p with
  | nil =>
    have := sizeD_pos t
    simp [remSibs]
    omega
  | cons i rp =>
    have := childCount_lt t rp
    simp [remSibs]
    omega

theorem firstElemAux_spec {l : List Dom} {k j : Nat} (h : firstElemAux l k = some j) :
    k ≤ j ∧ j - k < l.length := by
  induction l generalizing k with
  | nil => simp [firstElemAux] at h
  | cons c cs ih =>
    rw [firstElemAux] at h
    by_cases hc : isElem c
    · rw [if_pos hc] at h
      have : k = j := by simpa using h
      subst this
      simp
    · rw [if_neg hc] at h
      have h1 := ih h
      simp only [List.length_cons]
      omega

theorem nextElemSib_spec {t : Dom} {p q : Path} (h : nextElemSib t p = some q) :
    ∃ i j rp, p = i :: rp ∧ q = j :: rp ∧ i < j ∧ j < childCount t rp := by
  cases p with
  | nil => simp [nextElemSib] at h
  | cons i rp =>
    rw [nextElemSib] at h
    rcases hn : nodeAt t rp with _ | d
    · rw [hn] at h
      simp at h
    · rw [hn] at h
      cases d with
      | text s => simp at h
      | elem tag cs =>
        simp only [Option.map_eq_some'] at h
        obtain ⟨j, hj, rfl⟩ := h
        rw [firstElemIdxFrom] at hj
        have hs := firstElemAux_spec hj
        have hd : (cs.drop (i + 1)).length = cs.length - (i + 1) := List.length_drop ..
        refine ⟨i, j, rp, rfl, rfl, by omega, ?_⟩
        simp [childCount, hn]
        omega

theorem mu_sib {t : Dom} {p q : Path} (h : nextElemSib t p = some q) : mu t q < mu t p := by
  obtain ⟨i, j, rp, rfl, rfl, hij, hjc⟩ := nextElemSib_spec h
  simp only [mu, remSibs, List.length_cons]
  omega

theorem mu_parent {t : Dom} {p q : Path} (h : parentPath p = some q) : mu t q < mu t p := by
  cases p with
  | nil => simp [parentPath] at h
  | cons i rp =>
    simp only [parentPath, Option.some.injEq] at h
    subst h
    have h1 := remSibs_lt t rp
    have h2 := sizeD_pos t
    simp only [mu, List.length_cons, Nat.mul_succ]
    omega

theorem gebGo_isSome (t : Dom) (e : Option Path) :
    ∀ (fuel : Nat) (cur start : Path) (acc : List Path),
      parentPath cur = parentPath start → mu t cur < fuel →
      (gebGo t e fuel cur start acc).isSome := by
  intro fuel
  induction fuel with
  | zero =>
    intro cur start acc _ hmu
    exact absurd hmu (Nat.not_lt_zero _)
  | succ f ih =>
    intro cur start acc hinv hmu
    rw [gebGo]
    split
    · simp
    · split
      next nxt hs =>
        split
        · simp
        · obtain ⟨i, j, rp, hc, hn, _, _⟩ := nextElemSib_spec hs
          have hmus := mu_sib hs
          refine ih nxt start (nxt :: acc) ?_ (by omega)
          rw [hn, ← hinv, hc]
          simp [parentPath]
      next hs =>
        split
        next hp => simp
        next par hp =>
          split
          · simp
          · have hcp : parentPath cur = some par := by rw [hinv, hp]
            have hmup := mu_parent (t := t) hcp
            exact ih par par acc rfl (by omega)

theorem mu_init {t : Dom} {p : Path} {n : Dom} (h : nodeAt t p = some n) :
    mu t p < gebFuel t := by
  have h1 := nodeAt_le h
  have h2 := sizeD_pos n
  have h3 := remSibs_lt t p
  have h4 : mu t p < sizeD t * (p.length + 1) := by
    simp only [mu, Nat.mul_succ]
    omega
  have h5 : sizeD t * (p.length + 1) ≤ sizeD t * sizeD t :=
    Nat.mul_le_mul_left _ (by omega)
  rw [gebFuel]
  omega

/-- Claim C5: for every finite document tree and every choice of start
element and boundary (present, absent, or unreachable by sibling
traversal), the getElementsBetween walk terminates on its own: it never
exhausts the provided fuel bound, and whenever ascension reaches a node
with no parent the loop halts at once, returning the collected elements. -/
theorem claim_C5_traversal_terminates (t : Dom) (p : Path) (e : Option Path)
    (h : (nodeAt t p).isSome) :
    (gebGo t e (gebFuel t) p p []).isSome ∧
    (∀ (fuel : Nat) (cur start : Path) (acc : List Path),
       some cur ≠ e → nextElemSib t cur = none → parentPath start = none →
       gebGo t e (fuel + 1) cur start acc = some acc.reverse) := by
  constructor
  · obtain ⟨n, hn⟩ := Option.isSome_iff_exists.mp h
    exact gebGo_isSome t e _ p p [] rfl (mu_init hn)
  · intro fuel cur start acc h1 h2 h3
    rw [gebGo]
    simp [h1, h2, h3]

theorem claim_C5_witness :
    (nodeAt demoDoc [0, 0, 0]).isSome ∧
    (gebGo demoDoc none (gebFuel demoDoc) [0, 0, 0] [0, 0, 0] []).isSome := by
  have h : (nodeAt demoDoc [0, 0, 0]).isSome := by decide
  exact ⟨h, (claim_C5_traversal_terminates demoDoc [0, 0, 0] none h).1⟩

/-! ## The heading loop: one section per heading -/

theorem sectionsLoop_length (t : Dom) (hs : List Path) (lastB : Option Path) :
    ∀ (i : Nat) (rest : List Path), (sectionsLoop t hs lastB i rest).length = rest.length := by
  intro i rest
  induction rest generalizing i with
  | nil => simp [sectionsLoop]
  | cons p ps ih => simp [sectionsLoop, ih]

theorem sectionsLoop_titles (t : Dom) (hs : List Path) (lastB : Option Path) :
    ∀ (i : Nat) (rest : List Path),
      (sectionsLoop t hs lastB i rest).map Section.title = rest.map (textAt t) := by
  intro i rest
  induction rest generalizing i with
  | nil => simp [sectionsLoop]
  | cons p ps ih => simp [sectionsLoop, mkSection, ih]

theorem sectionsLoop_get (t : Dom) (hs : List Path) (lastB : Option Path) :
    ∀ (rest : List Path) (i0 k : Nat) (p : Path), rest[k]? = some p →
      (sectionsLoop t hs lastB i0 rest)[k]? = some (mkSection t hs lastB (i0 + k) p) := by
  intro rest
  induction rest with
  | nil => intro i0 k p h; simp at h
  | cons q qs ih =>
    intro i0 k p h
    cases k with
    | zero =>
      simp at h
      subst h
      simp [sectionsLoop]
    | succ k =>
      simp at h
      rw [show i0 + (k + 1) = (i0 + 1) + k from by omega]
      simpa [sectionsLoop] using ih (i0 + 1) k p h

/-- Claim C4: on a document tree with scripts and styles already removed,
segment returns exactly one section per heading, in document order of the
headings, and the returned titles are the headings' text contents in the
original order. -/
theorem claim_C4_one_section_per_heading (d : Dom) (h : stripScriptsStyles d = d) :
    (segment d).length = (headingPaths d).length ∧
    (segment d).map Section.title = (headingPaths d).map (textAt d) := by
  unfold segment
  rw [h]
  exact ⟨sectionsLoop_length .., sectionsLoop_titles ..⟩

theorem claim_C4_witness :
    stripScriptsStyles demoDoc = demoDoc ∧
    (segment demoDoc).length = (headingPaths demoDoc).length ∧
    (segment demoDoc).map Section.title = (headingPaths demoDoc).map (textAt demoDoc) := by
  have h : stripScriptsStyles demoDoc = demoDoc := by
    simp [demoDoc, stripScriptsStyles, stripL]
  exact ⟨h, claim_C4_one_section_per_heading demoDoc h⟩

/-! ## Empty sections between adjacent boundaries -/

theorem gebGo_sibHit (t : Dom) {p b : Path} (start : Path) (acc : List Path) (fuel : Nat)
    (hf : 1 ≤ fuel) (hs : nextElemSib t p = some b) :
    gebGo t (some b) fuel p start acc = some acc.reverse := by
  obtain ⟨f, rfl⟩ : ∃ f, fuel = f + 1 := ⟨fuel - 1, by omega⟩
  have hne : p ≠ b := by
    obtain ⟨i, j, rp, hp, hb, hij, _⟩ := nextElemSib_spec hs
    rw [hp, hb]
    simp
    omega
  rw [gebGo]
  rw [if_neg (by simpa using hne), hs]
  simp

theorem gebGo_tailHit (t : Dom) {p q b : Path} (acc : List Path) (fuel : Nat)
    (hf : 2 ≤ fuel) (h1 : nextElemSib t p = none) (h2 : parentPath p = some q)
    (h3 : nextElemSib t q = some b) :
    gebGo t (some b) fuel p p acc = some acc.reverse := by
  obtain ⟨f, rfl⟩ : ∃ f, fuel = f + 2 := ⟨fuel - 2, by omega⟩
  have hqb : q ≠ b := by
    obtain ⟨i, j, rp, hq, hb, hij, _⟩ := nextElemSib_spec h3
    rw [hq, hb]
    simp
    omega
  have hpb : p ≠ b := by
    obtain ⟨i, j, rp, hq, hb, hij, _⟩ := nextElemSib_spec h3
    cases p with
    | nil => simp [parentPath] at h2
    | cons x xs =>
      simp only [parentPath, Option.some.injEq] at h2
      subst h2
      rw [hb, hq]
      intro hcontra
      have h4 : i :: rp = rp := (List.cons.injEq ..).mp hcontra |>.2
      have h5 := congrArg List.length h4
      simp at h5
  rw [gebGo]
  rw [if_neg (by simpa using hpb), h1, h2]
  simp only [Option.some.injEq, if_neg hqb]
  exact gebGo_sibHit t q acc (f + 1) (by omega) h3

theorem geb_empty_immediate (t : Dom) {p b : Path}
    (h : nextElemSib t p = some b ∨
         (nextElemSib t p = none ∧ ∃ q, parentPath p = some q ∧ nextElemSib t q = some b)) :
    getElementsBetween t p (some b) = [] := by
  rcases h with hs | ⟨h1, q, h2, h3⟩
  · have hfuel : 1 ≤ gebFuel t := Nat.mul_pos (sizeD_pos t) (sizeD_pos t)
    rw [getElementsBetween, gebGo_sibHit t p [] (gebFuel t) hfuel hs]
    rfl
  · have hS : 2 ≤ sizeD t := by
      obtain ⟨i, j, rp, hq, hb, hij, hjc⟩ := nextElemSib_spec h3
      have hcc : 1 ≤ childCount t rp := by omega
      rcases hn : nodeAt t rp with _ | d
      · simp [childCount, hn] at hcc
      · cases d with
        | text s => simp [childCount, hn] at hcc
        | elem tag cs =>
          have h4 := nodeAt_le hn
          have h5 := length_le_sizeL cs
          simp only [sizeD] at h4
          simp [childCount, hn] at hcc
          omega
    have hfuel : 2 ≤ gebFuel t := by
      rw [gebFuel]
      calc 2 ≤ sizeD t := hS
        _ = sizeD t * 1 := by omega
        _ ≤ sizeD t * sizeD t := Nat.mul_le_mul_left _ (by omega)
    rw [getElementsBetween, gebGo_tailHit t [] (gebFuel t) hfuel h1 h2 h3]
    rfl

/-- Claim C7: whenever the i-th heading is immediately followed by its
boundary element (the next heading, or the tail boundary) — as next
sibling, or with no next sibling and the boundary the parent's next
sibling — segment produces for that heading a section whose content is the
empty string, and segmentation succeeds. -/
theorem claim_C7_empty_content (d : Dom) (hstrip : stripScriptsStyles d = d)
    (i : Nat) (p b : Path)
    (hp : (headingPaths d)[i]? = some p)
    (hb : ((headingPaths d)[i + 1]?).orElse (fun _ => tailBoundary d (headingPaths d)) = some b)
    (himm : nextElemSib d p = some b ∨
            (nextElemSib d p = none ∧ ∃ q, parentPath p = some q ∧ nextElemSib d q = some b)) :
    ∃ s, (segment d)[i]? = some s ∧ s.content = "" := by
  refine ⟨mkSection d (headingPaths d) (tailBoundary d (headingPaths d)) i p, ?_, ?_⟩
  · unfold segment
    rw [hstrip]
    simpa using sectionsLoop_get d (headingPaths d) (tailBoundary d (headingPaths d))
      (headingPaths d) 0 i p hp
  · simp only [mkSection]
    rw [hb, geb_empty_immediate d himm]
    rfl

theorem claim_C7_witness :
    ((headingPaths demoDoc)[0]? = some [0, 0, 0] ∧
     ((headingPaths demoDoc)[1]?).orElse (fun _ => tailBoundary demoDoc (headingPaths demoDoc))
        = some [1, 0, 0] ∧
     nextElemSib demoDoc [0, 0, 0] = some [1, 0, 0]) ∧
    ∃ s, (segment demoDoc)[0]? = some s ∧ s.content = "" := by
  have h0 : stripScriptsStyles demoDoc = demoDoc := by
    simp [demoDoc, stripScriptsStyles, stripL]
  have h1 : (headingPaths demoDoc)[0]? = some [0, 0, 0] := by decide
  have h2 : ((headingPaths demoDoc)[1]?).orElse
      (fun _ => tailBoundary demoDoc (headingPaths demoDoc)) = some [1, 0, 0] := by decide
  have h3 : nextElemSib demoDoc [0, 0, 0] = some [1, 0, 0] := by decide
  exact ⟨⟨h1, h2, h3⟩,
    claim_C7_empty_content demoDoc h0 0 [0, 0, 0] [1, 0, 0] h1 h2 (Or.inl h3)⟩

/-! ## The chunking loop -/

theorem chunkGo_length {α : Type} :
    ∀ (fuel : Nat) (l : List α) (i : Nat), l.length ≤ fuel →
      (chunkGo fuel l i).length = (l.length + 24) / 25 := by
  intro fuel
  induction fuel with
  | zero =>
    intro l i h
    have : l = [] := List.eq_nil_of_length_eq_zero (by omega)
    subst this
    simp [chunkGo]
  | succ f ih =>
    intro l i h
    cases l with
    | nil => simp [chunkGo]
    | cons u us =>
      have hlen : ((u :: us).drop 25).length ≤ f := by
        rw [List.length_drop]
        simp only [List.length_cons] at h ⊢
        omega
      rw [chunkGo]
      simp only [List.length_cons]
      rw [ih ((u :: us).drop 25) (i + 25) hlen]
      simp only [List.length_drop, List.length_cons]
      omega

theorem chunkGo_get {α : Type} :
    ∀ (fuel : Nat) (l : List α) (i k : Nat) (b : Batch α), (chunkGo fuel l i)[k]? = some b →
      b.index = i + 25 * k ∧ b.urls = (l.drop (25 * k)).take 25 := by
  intro fuel
  induction fuel with
  | zero => intro l i k b h; simp [chunkGo] at h
  | succ f ih =>
    intro l i k b h
    cases l with
    | nil => simp [chunkGo] at h
    | cons u us =>
      rw [chunkGo] at h
      cases k with
      | zero =>
        simp at h
        subst h
        simp
      | succ k =>
        simp only [List.getElem?_cons_succ] at h
        obtain ⟨e1, e2⟩ := ih ((u :: us).drop 25) (i + 25) k b h
        constructor
        · omega
        · rw [e2, List.drop_drop]
          rw [show (25 : Nat) + 25 * k = 25 * (k + 1) from by omega]

theorem chunkGo_flatten {α : Type} :
    ∀ (fuel : Nat) (l : List α) (i : Nat), l.length ≤ fuel →
      ((chunkGo fuel l i).map (Batch.urls)).flatten = l := by
  intro fuel
  induction fuel with
  | zero =>
    intro l i h
    have : l = [] := List.eq_nil_of_length_eq_zero (by omega)
    subst this
    simp [chunkGo]
  | succ f ih =>
    intro l i h
    cases l with
    | nil => simp [chunkGo]
    | cons u us =>
      have hlen : ((u :: us).drop 25).length ≤ f := by
        rw [List.length_drop]
        simp only [List.length_cons] at h ⊢
        omega
      rw [chunkGo]
      simp only [List.map_cons, List.flatten_cons]
      rw [ih ((u :: us).drop 25) (i + 25) hlen]
      exact List.take_append_drop ..

theorem chunkGo_flatMap {α β : Type} (g : α → Option β) :
    ∀ (fuel : Nat) (l : List α) (i : Nat), l.length ≤ fuel →
      (chunkGo fuel l i).flatMap (fun c => c.urls.filterMap g) = l.filterMap g := by
  intro fuel
  induction fuel with
  | zero =>
    intro l i h
    have : l = [] := List.eq_nil_of_length_eq_zero (by omega)
    subst this
    simp [chunkGo]
  | succ f ih =>
    intro l i h
    cases l with
    | nil => simp [chunkGo]
    | cons u us =>
      have hlen : ((u :: us).drop 25).length ≤ f := by
        rw [List.length_drop]
        simp only [List.length_cons] at h ⊢
        omega
      rw [chunkGo]
      simp only [List.flatMap_cons]
      rw [ih ((u :: us).drop 25) (i + 25) hlen]
      rw [← List.filterMap_append, List.take_append_drop]

/-- Claim C3: chunking a list of length L yields ceil(L/25) batches; batch
k carries exactly the slice urls[25k .. 25k+25) under index 25k, so every
batch has at most 25 URLs, indices are strictly increasing, and the batches
concatenate back to the original list. -/
theorem claim_C3_chunk (l : List String) :
    (chunk l).length = (l.length + 24) / 25 ∧
    (∀ (k : Nat) (b : Batch String), (chunk l)[k]? = some b →
       b.index = 25 * k ∧ b.urls = (l.drop (25 * k)).take 25 ∧ b.urls.length ≤ 25) ∧
    (∀ (k1 k2 : Nat) (b1 b2 : Batch String),
       (chunk l)[k1]? = some b1 → (chunk l)[k2]? = some b2 → k1 < k2 →
       b1.index < b2.index) ∧
    ((chunk l).map Batch.urls).flatten = l := by
  refine ⟨chunkGo_length l.length l 0 le_rfl, ?_, ?_, chunkGo_flatten l.length l 0 le_rfl⟩
  · intro k b h
    obtain ⟨e1, e2⟩ := chunkGo_get l.length l 0 k b h
    refine ⟨by omega, e2, ?_⟩
    rw [e2]
    exact List.length_take_le ..
  · intro k1 k2 b1 b2 h1 h2 hk
    obtain ⟨e1, _⟩ := chunkGo_get l.length l 0 k1 b1 h1
    obtain ⟨e2, _⟩ := chunkGo_get l.length l 0 k2 b2 h2
    omega

theorem claim_C3_witness :
    (chunk (List.replicate 26 "u")).length = (26 + 24) / 25 ∧
    ((chunk (List.replicate 26 "u"))[1]? = some { index := 25, urls := ["u"] } ∧
      ({ index := 25, urls := ["u"] } : Batch String).index = 25 * 1) ∧
    ((chunk (List.replicate 26 "u")).map Batch.urls).flatten = List.replicate 26 "u" := by
  have h := claim_C3_chunk (List.replicate 26 "u")
  have hb : (chunk (List.replicate 26 "u"))[1]? = some { index := 25, urls := ["u"] } := by
    decide
  exact ⟨by simpa using h.1, ⟨hb, (h.2.1 1 _ hb).1⟩, h.2.2.2⟩

/-! ## Registry lookup-before-create -/

theorem kvGet_set_self (s : List (String × String)) (k v : String) :
    kvGet (kvSet s k v) k = some v := by
  simp [kvGet, kvSet]

theorem kvSet_keys_nodup {s : List (String × String)} (k v : String)
    (h : (s.map Prod.fst).Nodup) : ((kvSet s k v).map Prod.fst).Nodup := by
  simp only [kvSet, List.map_cons, List.nodup_cons]
  constructor
  · simp only [List.mem_map, List.mem_filter]
    rintro ⟨a, ⟨_, ha⟩, rfl⟩
    simp at ha
  · exact h.sublist ((List.filter_sublist _).map _)

/-- Claim C1: publishing twice for the same site URL starting from a
registry miss returns the same knowledge-base id both times; the first call
creates an assistant and stores its id under the site URL, the second call
finds the stored id, updates rather than creates (the assistant count does
not change), leaves the registry entry unchanged, and key uniqueness of the
registry is preserved, so at most one knowledge-base id exists per distinct
site URL. -/
theorem claim_C1_publish_twice (w : World) (url c1 c2 : String)
    (h : kvGet w.store url = none) :
    (publish (publish w url c1).1 url c2).2 = (publish w url c1).2 ∧
    kvGet (publish w url c1).1.store url = some (publish w url c1).2 ∧
    kvGet (publish (publish w url c1).1 url c2).1.store url = some (publish w url c1).2 ∧
    (publish w url c1).1.assistants.length = w.assistants.length + 1 ∧
    (publish (publish w url c1).1 url c2).1.assistants.length
        = (publish w url c1).1.assistants.length ∧
    ((w.store.map Prod.fst).Nodup →
       ((publish (publish w url c1).1 url c2).1.store.map Prod.fst).Nodup) := by
  simp [publish, h, kvGet_set_self]
  intro hn
  exact kvSet_keys_nodup _ _ hn

theorem claim_C1_witness :
    kvGet emptyWorld.store "https://d.example" = none ∧
    (publish (publish emptyWorld "https://d.example" "c1").1 "https://d.example" "c2").2
      = (publish emptyWorld "https://d.example" "c1").2 ∧
    (publish (publish emptyWorld "https://d.example" "c1").1 "https://d.example" "c2").1.assistants.length
      = (publish emptyWorld "https://d.example" "c1").1.assistants.length := by
  have h := claim_C1_publish_twice emptyWorld "https://d.example" "c1" "c2" rfl
  exact ⟨rfl, h.1, h.2.2.2.2.1⟩

/-! ## The question-assistant guard and the delete job -/

/-- Claim C8: asking about a site URL with no registry entry fails with the
no-assistant error before any thread is created or resumed, any message is
appended, or any run is started: the returned world is the input world. -/
theorem claim_C8_unknown_site (w : World) (env : AskEnv) (content url : String)
    (threadId? : Option String) (h : kvGet w.store url = none) :
    ask w env content url threadId? = (w, .error ("No assistant found for " ++ url)) := by
  simp [ask, h]

theorem claim_C8_witness :
    kvGet emptyWorld.store "https://d.example" = none ∧
    ask emptyWorld { runStatus := "completed", lastError := "", reply := "r" }
        "What is X?" "https://d.example" none
      = (emptyWorld, .error ("No assistant found for " ++ "https://d.example")) := by
  exact ⟨rfl, claim_C8_unknown_site emptyWorld _ "What is X?" "https://d.example" none rfl⟩

/-- Claim C9: the delete job deletes only the assistant (knowledge base):
the registry (store) is not read, cleared or rewritten — every key reads
the same — and files, threads and runs are untouched. -/
theorem claim_C9_delete_frame (w : World) (i : String) :
    (deleteAssistant w i).store = w.store ∧
    (∀ k, kvGet (deleteAssistant w i).store k = kvGet w.store k) ∧
    (deleteAssistant w i).files = w.files ∧
    (deleteAssistant w i).threads = w.threads ∧
    (deleteAssistant w i).runs = w.runs ∧
    (deleteAssistant w i).assistants = w.assistants.filter (fun a => a.id != i) :=
  ⟨rfl, fun _ => rfl, rfl, rfl, rfl, rfl⟩

/-! ## The sitemap crawl -/

/-- Counterexample to claim C6 as stated: an HTTP response with the
non-success status 404 (an HTML error page) is not reported as a fetch
error — the body is parsed regardless and the failure surfaces as the
malformed-sitemap shape error instead. -/
theorem claim_C6_counterexample :
    getSitemapUrls (.response 404 (.vObj [("html", .vStr "Not Found")]))
        = .error .malformedSitemap ∧
    getSitemapUrls (.response 404 (.vObj [("html", .vStr "Not Found")]))
        ≠ .error .fetchError := by
  refine ⟨rfl, ?_⟩
  intro h
  rw [show getSitemapUrls (.response 404 (.vObj [("html", .vStr "Not Found")]))
      = Except.error SiteErr.malformedSitemap from rfl] at h
  simp at h

/-- Claim C6 (amended): the crawl fails with FetchError exactly when the
HTTP request itself fails (a network error); a response — whatever its
status — has its body parsed, failing with MalformedSitemapError whenever
the parsed XML lacks the urlset.url array shape, and otherwise returning
the loc of every url entry as an ordered list preserving sitemap order. -/
theorem claim_C6_sitemap_errors :
    (∀ sm : SmFetch, getSitemapUrls sm = .error .fetchError ↔ sm = .netFail) ∧
    (∀ (st : Nat) (v us : PVal) (xs : List PVal),
       jsGet v "urlset" = some us → jsGet us "url" = some (.vArr xs) →
       getSitemapUrls (.response st v) = .ok (xs.map (fun x => jsGet x "loc"))) ∧
    (∀ (st : Nat) (v : PVal),
       (∀ us xs, ¬(jsGet v "urlset" = some us ∧ jsGet us "url" = some (.vArr xs))) →
       getSitemapUrls (.response st v) = .error .malformedSitemap) := by
  refine ⟨?_, ?_, ?_⟩
  · intro sm
    cases sm with
    | netFail => simp [getSitemapUrls]
    | response st v =>
      constructor
      · intro h
        rw [getSitemapUrls] at h
        split at h
        · simp at h
        · split at h
          · simp at h
          · simp at h
          · simp at h
      · intro h
        exact absurd h (by simp)
  · intro st v us xs h1 h2
    simp [getSitemapUrls, h1, h2]
  · intro st v hno
    rcases h1 : jsGet v "urlset" with _ | us
    · simp [getSitemapUrls, h1]
    · rcases h2 : jsGet us "url" with _ | u
      · simp [getSitemapUrls, h1, h2]
      · cases u with
        | vArr xs => exact absurd ⟨h1, h2⟩ (hno us xs)
        | vStr s => simp [getSitemapUrls, h1, h2]
        | vNum n => simp [getSitemapUrls, h1, h2]
        | vObj fs => simp [getSitemapUrls, h1, h2]

theorem claim_C6_amended_witness :
    getSitemapUrls .netFail = .error .fetchError ∧
    jsGet emptySitemapVal "urlset" = some (.vObj [("url", .vArr [])]) ∧
    getSitemapUrls (.response 200 emptySitemapVal) = .ok [] := by
  have h := claim_C6_sitemap_errors
  refine ⟨(h.1 .netFail).mpr rfl, rfl, ?_⟩
  simpa using h.2.1 200 emptySitemapVal (.vObj [("url", .vArr [])]) [] rfl rfl

/-! ## The batch orchestrator: silent per-URL failure dropping -/

theorem processSite_ok (w : World) (sm : SmFetch) (env : String → Option Dom) (url : String)
    (us : List (Option PVal)) (h : getSitemapUrls sm = .ok us) :
    processSite w sm env url =
      .ok (publish w url
        (String.intercalate "\n\n" ((successPages env us).map Prod.snd))) := by
  simp only [processSite, h, chunk]
  rw [show (chunkGo us.length us 0).flatMap
        (fun c => c.urls.filterMap (fun u => (invokeSingle env u).map (fun p => (u, p))))
      = successPages env us from chunkGo_flatMap _ us.length us 0 le_rfl]

theorem publish_files_head (w : World) (url c : String) :
    (publish w url c).1.files.head? = some ("file_" ++ toString w.nextId, c) := by
  rcases h : kvGet w.store url with _ | a <;> simp [publish, h]

theorem option_filterMap_length {α β : Type} (g : α → Option β) (l : List α) :
    (l.filterMap g).length + (l.filter (fun a => (g a).isNone)).length = l.length := by
  induction l with
  | nil => simp
  | cons a as ih =>
    rcases h : g a with _ | b <;>
      simp [List.filterMap_cons, List.filter_cons, h] <;> omega

theorem renderPage_has_header (u : String) (secs : List Section) :
    ∃ a b, renderPage u secs = a ++ ("url: " ++ u) ++ b := by
  refine ⟨"\n        " ++ pageSep ++ "\n        ",
    "\n" ++ "\n        "
      ++ String.intercalate "\n" (secs.map (fun e => e.title ++ "\n" ++ e.content))
      ++ "\n" ++ "\n        " ++ pageSep ++ "\n        ", ?_⟩
  simp only [renderPage, String.append_assoc]

/-- Claim C2: per-URL fetch/segment failures are silently dropped: whenever
the sitemap step succeeds, the run returns ok for every per-URL outcome
environment; the uploaded corpus is exactly the successful pages joined in
crawl order (each page carrying its source-URL header), and the number of
successful pages plus the number of failed entries equals the total number
of sitemap entries. -/
theorem claim_C2_drops_failed_urls (w : World) (sm : SmFetch) (env : String → Option Dom)
    (url : String) (us : List (Option PVal)) (h : getSitemapUrls sm = .ok us) :
    (∃ wr id, processSite w sm env url = .ok (wr, id) ∧
       wr.files.head? = some ("file_" ++ toString w.nextId,
         String.intercalate "\n\n" ((successPages env us).map Prod.snd))) ∧
    (successPages env us).length
        + (us.filter (fun u => (invokeSingle env u).isNone)).length = us.length ∧
    (successPages env us).length
        = us.length - (us.filter (fun u => (invokeSingle env u).isNone)).length ∧
    (∀ u p, (u, p) ∈ successPages env us → invokeSingle env u = some p) ∧
    (∀ u secs, ∃ a b, renderPage u secs = a ++ ("url: " ++ u) ++ b) := by
  have hcount : (successPages env us).length
      + (us.filter (fun u => (invokeSingle env u).isNone)).length = us.length := by
    have heq : ∀ u : Option PVal,
        ((invokeSingle env u).map (fun p => (u, p))).isNone = (invokeSingle env u).isNone := by
      intro u
      rcases invokeSingle env u <;> rfl
    have h1 := option_filterMap_length
      (fun u => (invokeSingle env u).map (fun p => (u, p))) us
    simpa [successPages, heq] using h1
  refine ⟨?_, hcount, by omega, ?_, renderPage_has_header⟩
  · refine ⟨(publish w url
        (String.intercalate "\n\n" ((successPages env us).map Prod.snd))).1,
      (publish w url
        (String.intercalate "\n\n" ((successPages env us).map Prod.snd))).2, ?_, ?_⟩
    · rw [processSite_ok w sm env url us h]
    · exact publish_files_head ..
  · intro u p hmem
    simp only [successPages, List.mem_filterMap] at hmem
    obtain ⟨x, _, hx⟩ := hmem
    rw [Option.map_eq_some'] at hx
    obtain ⟨q, hq, he⟩ := hx
    obtain ⟨rfl, rfl⟩ := Prod.mk.injEq .. |>.mp he
    exact hq

theorem claim_C2_witness :
    getSitemapUrls demoSitemap = .ok demoUrls ∧
    (∃ wr id, processSite emptyWorld demoSitemap demoEnv "https://s.example" = .ok (wr, id) ∧
       wr.files.head? = some ("file_" ++ toString emptyWorld.nextId,
         String.intercalate "\n\n" ((successPages demoEnv demoUrls).map Prod.snd))) ∧
    (successPages demoEnv demoUrls).length
        + (demoUrls.filter (fun u => (invokeSingle demoEnv u).isNone)).length
      = demoUrls.length := by
  have hs : getSitemapUrls demoSitemap = .ok demoUrls := rfl
  have h := claim_C2_drops_failed_urls emptyWorld demoSitemap demoEnv "https://s.example"
    demoUrls hs
  exact ⟨hs, h.1, h.2.1⟩

/-- Claim C10: if every per-URL task fails, the run still succeeds and
still publishes: the uploaded corpus document is the empty string, the
knowledge base is created on a registry miss (or the stored id returned on
a hit), and the run result is the same as for a site whose sitemap lists no
URLs at all. -/
theorem claim_C10_all_failures (w : World) (sm : SmFetch) (env : String → Option Dom)
    (url : String) (us : List (Option PVal)) (h : getSitemapUrls sm = .ok us)
    (hall : ∀ u ∈ us, invokeSingle env u = none) :
    processSite w sm env url = .ok (publish w url "") ∧
    (publish w url "").1.files.head? = some ("file_" ++ toString w.nextId, "") ∧
    (kvGet w.store url = none →
       kvGet (publish w url "").1.store url = some (publish w url "").2 ∧
       (publish w url "").1.assistants.length = w.assistants.length + 1) ∧
    (∀ a, kvGet w.store url = some a → (publish w url "").2 = a) ∧
    processSite w sm env url = processSite w (.response 200 emptySitemapVal) env url := by
  have hsp : successPages env us = [] := by
    rw [successPages, List.filterMap_eq_nil_iff]
    intro u hu
    rw [hall u hu]
    rfl
  have h1 := processSite_ok w sm env url us h
  rw [hsp] at h1
  have h1 : processSite w sm env url = .ok (publish w url "") := by simpa using h1
  have h2 := processSite_ok w (.response 200 emptySitemapVal) env url [] rfl
  have h2 : processSite w (.response 200 emptySitemapVal) env url
      = .ok (publish w url "") := by simpa [successPages] using h2
  refine ⟨h1, publish_files_head .., ?_, ?_, by rw [h1, h2]⟩
  · intro hnone
    simp [publish, hnone, kvGet_set_self]
  · intro a ha
    simp [publish, ha]

theorem claim_C10_witness :
    getSitemapUrls demoSitemap = .ok demoUrls ∧
    (∀ u ∈ demoUrls, invokeSingle (fun _ => none) u = none) ∧
    processSite emptyWorld demoSitemap (fun _ => none) "https://s.example"
      = .ok (publish emptyWorld "https://s.example" "") := by
  have hs : getSitemapUrls demoSitemap = .ok demoUrls := rfl
  have hall : ∀ u ∈ demoUrls, invokeSingle (fun _ => none) u = none := by
    intro u hu
    rcases u with _ | v
    · rfl
    · cases v <;> rfl
  exact ⟨hs, hall,
    (claim_C10_all_failures emptyWorld demoSitemap (fun _ => none) "https://s.example"
      demoUrls hs hall).1⟩

end Docs
